import Mathlib

/-!
Shallow embedding of the structdiff library (src/structdiff/src/lib.rs),
a structural diff/patch engine: `changeset(&self, &other)` computes a typed
change representation (`Field`) and `apply(self, &mut target)` replays it.

Modelling conventions:
* Rust `Vec<T>` is `List α`; `Option<T>` is `Option α`; `Result<T, E>` is
  the inductive `RResult T E` below.
* A Rust `fn apply(self, target: &mut T)` method is a function `T → Option T`:
  `some t2` is normal termination leaving the target as `t2`, and
  `Option.none` models a panic — the `unreachable!` arms on branch mismatch
  and the out-of-bounds indexing panic of `target[index]`.
* Rust `PartialEq` is an explicit boolean relation `eq : α → α → Bool`
  carried in the `DiffImpl` record, because for floats `==` is IEEE
  equality, which is not reflexive at NaN.
* The `Diff` trait with its associated types `Changeset` and `Action` is the
  record `DiffImpl`, bundling the two types, their apply functions, the
  carrier's `PartialEq`, and `changeset`.
-/


namespace Structdiff
/-- `Field<V, K, A>` from lib.rs: the four-case change representation
(no change / wholesale replace / nested changeset / ordered action list). -/
inductive Field (V K A : Type) where
  | none : Field V K A
  | set : V → Field V K A
  | changes : K → Field V K A
  | actions : List A → Field V K A
deriving DecidableEq

/-- Sequential application of an action list, left to right, stopping at the
first panic: models `actions.into_iter().for_each(|x| x.apply(target))`. -/
def applyList {V A : Type} (applyA : A → V → Option V) : List A → V → Option V
  | [], t => some t
  | a :: rest, t =>
    match applyA a t with
    | some t2 => applyList applyA rest t2
    | Option.none => Option.none

/-- `impl Apply<V> for Field<V, K, A>` from lib.rs, parameterized by the
apply functions of the changeset type `K` and action type `A`. -/
def Field.apply {V K A : Type} (applyK : K → V → Option V) (applyA : A → V → Option V) :
    Field V K A → V → Option V
  | Field.none, t => some t
  | Field.set v, _ => some v
  | Field.changes k, t => applyK k t
  | Field.actions l, t => applyList applyA l t

@[simp] theorem applyList_nil {V A : Type} (aA : A → V → Option V) (t : V) :
    applyList aA [] t = some t := rfl

@[simp] theorem applyList_cons {V A : Type} (aA : A → V → Option V)
    (a : A) (rest : List A) (t : V) :
    applyList aA (a :: rest) t = (aA a t).bind (applyList aA rest) := by
  cases h : aA a t <;> simp [applyList, h]

@[simp] theorem Field.apply_none {V K A : Type}
    (aK : K → V → Option V) (aA : A → V → Option V) (t : V) :
    Field.apply aK aA Field.none t = some t := rfl

@[simp] theorem Field.apply_set_value {V K A : Type}
    (aK : K → V → Option V) (aA : A → V → Option V) (v t : V) :
    Field.apply aK aA (Field.set v) t = some v := rfl

@[simp] theorem Field.apply_changes {V K A : Type}
    (aK : K → V → Option V) (aA : A → V → Option V) (k : K) (t : V) :
    Field.apply aK aA (Field.changes k) t = aK k t := rfl

@[simp] theorem Field.apply_actions {V K A : Type}
    (aK : K → V → Option V) (aA : A → V → Option V) (l : List A) (t : V) :
    Field.apply aK aA (Field.actions l) t = applyList aA l t := rfl

/-- `impl<T> Apply<T> for ()`: the no-op apply of the unit changeset/action. -/
def unitApply {V : Type} : Unit → V → Option V := fun _ t => some t

/-- One `Diff` trait instance for carrier `α`: its changeset type `K`, its
action type `A`, their apply functions, the carrier's `PartialEq`, and
`changeset`. -/
structure DiffImpl (α : Type) where
  K : Type
  A : Type
  applyK : K → α → Option α
  applyA : A → α → Option α
  eq : α → α → Bool
  changeset : α → α → Field α K A

/-- `Field::apply` at the types of a given `Diff` instance. -/
def DiffImpl.applyField {α : Type} (d : DiffImpl α) : Field α d.K d.A → α → Option α :=
  Field.apply d.applyK d.applyA

/-- `impl_scalar!` / `impl_scalar_ref!` from lib.rs: `Changeset = Action = ()`
and `changeset` is `Set(*other)` when `self != other`, else `None`. -/
def scalarDiff {α : Type} (eqf : α → α → Bool) : DiffImpl α where
  K := Unit
  A := Unit
  applyK := unitApply
  applyA := unitApply
  eq := eqf
  changeset := fun a b => if !(eqf a b) then Field.set b else Field.none

/-- `OptionChangeset<T>` from lib.rs. -/
inductive OptionChangeset (α K A : Type) where
  | noneChangeset : Field Unit Unit Unit → OptionChangeset α K A
  | someChangeset : Field α K A → OptionChangeset α K A
deriving DecidableEq

/-- `impl<T: Diff> Apply<Option<T>> for OptionChangeset<T>`: `NoneChangeset`
sets the target to `None`; `SomeChangeset` applies the inner field to the
payload, and panics (`unreachable!("This is a logic error.")`) when the
target is absent. -/
def OptionChangeset.apply {α K A : Type}
    (applyK : K → α → Option α) (applyA : A → α → Option α) :
    OptionChangeset α K A → Option α → Option (Option α)
  | OptionChangeset.noneChangeset _, _ => some Option.none
  | OptionChangeset.someChangeset f, t =>
    match t with
    | Option.some v => (Field.apply applyK applyA f v).map Option.some
    | Option.none => Option.none

@[simp] theorem OptionChangeset.apply_noneChangeset {α K A : Type}
    (aK : K → α → Option α) (aA : A → α → Option α)
    (f : Field Unit Unit Unit) (t : Option α) :
    OptionChangeset.apply aK aA (OptionChangeset.noneChangeset f) t =
      some Option.none := rfl

@[simp] theorem OptionChangeset.apply_someChangeset_some {α K A : Type}
    (aK : K → α → Option α) (aA : A → α → Option α)
    (f : Field α K A) (v : α) :
    OptionChangeset.apply aK aA (OptionChangeset.someChangeset f) (Option.some v) =
      (Field.apply aK aA f v).map Option.some := rfl

@[simp] theorem OptionChangeset.apply_someChangeset_none {α K A : Type}
    (aK : K → α → Option α) (aA : A → α → Option α) (f : Field α K A) :
    OptionChangeset.apply aK aA (OptionChangeset.someChangeset f) Option.none =
      Option.none := rfl

/-- `PartialEq` for `Option<T>`, in terms of the payload equality. -/
def optEq {α : Type} (eqf : α → α → Bool) : Option α → Option α → Bool
  | Option.none, Option.none => true
  | Option.some x, Option.some y => eqf x y
  | _, _ => false

/-- `<Option<T> as Diff>::changeset` from lib.rs: equality short-circuit,
then the `(None, None)` / `(Some, Some)` / presence-differs match. -/
def optionChangesetFn {α : Type} (d : DiffImpl α) (a b : Option α) :
    Field (Option α) (OptionChangeset α d.K d.A) Unit :=
  if optEq d.eq a b then Field.none
  else
    match a, b with
    | Option.none, Option.none =>
      Field.changes (OptionChangeset.noneChangeset Field.none)
    | Option.some x, Option.some y =>
      Field.changes (OptionChangeset.someChangeset (d.changeset x y))
    | _, v => Field.set v

/-- The `Diff` instance for `Option<T>` (`type Action = ()`). -/
def optionDiff {α : Type} (d : DiffImpl α) : DiffImpl (Option α) where
  K := OptionChangeset α d.K d.A
  A := Unit
  applyK := OptionChangeset.apply d.applyK d.applyA
  applyA := unitApply
  eq := optEq d.eq
  changeset := optionChangesetFn d

/-- Rust's `Result<T, E>`. -/
inductive RResult (T E : Type) where
  | ok : T → RResult T E
  | err : E → RResult T E
deriving DecidableEq

/-- `ResultChangeset<T, E>` from lib.rs. -/
inductive ResultChangeset (T E KT AT KE AE : Type) where
  | okChangeset : Field T KT AT → ResultChangeset T E KT AT KE AE
  | errChangeset : Field E KE AE → ResultChangeset T E KT AT KE AE
deriving DecidableEq

/-- `impl Apply<Result<T, E>> for ResultChangeset<T, E>`: the matching branch
recurses into the payload; a branch mismatch panics
(`unreachable!("Logic error")`). -/
def ResultChangeset.apply {T E KT AT KE AE : Type}
    (applyKT : KT → T → Option T) (applyAT : AT → T → Option T)
    (applyKE : KE → E → Option E) (applyAE : AE → E → Option E) :
    ResultChangeset T E KT AT KE AE → RResult T E → Option (RResult T E)
  | ResultChangeset.okChangeset f, t =>
    match t with
    | RResult.ok inner => (Field.apply applyKT applyAT f inner).map RResult.ok
    | RResult.err _ => Option.none
  | ResultChangeset.errChangeset f, t =>
    match t with
    | RResult.err inner => (Field.apply applyKE applyAE f inner).map RResult.err
    | RResult.ok _ => Option.none

@[simp] theorem ResultChangeset.apply_ok_ok {T E KT AT KE AE : Type}
    (aKT : KT → T → Option T) (aAT : AT → T → Option T)
    (aKE : KE → E → Option E) (aAE : AE → E → Option E)
    (f : Field T KT AT) (v : T) :
    ResultChangeset.apply aKT aAT aKE aAE (ResultChangeset.okChangeset f)
      (RResult.ok v) = (Field.apply aKT aAT f v).map RResult.ok := rfl

@[simp] theorem ResultChangeset.apply_ok_err {T E KT AT KE AE : Type}
    (aKT : KT → T → Option T) (aAT : AT → T → Option T)
    (aKE : KE → E → Option E) (aAE : AE → E → Option E)
    (f : Field T KT AT) (v : E) :
    ResultChangeset.apply aKT aAT aKE aAE (ResultChangeset.okChangeset f)
      (RResult.err v) = Option.none := rfl

@[simp] theorem ResultChangeset.apply_err_err {T E KT AT KE AE : Type}
    (aKT : KT → T → Option T) (aAT : AT → T → Option T)
    (aKE : KE → E → Option E) (aAE : AE → E → Option E)
    (f : Field E KE AE) (v : E) :
    ResultChangeset.apply aKT aAT aKE aAE (ResultChangeset.errChangeset f)
      (RResult.err v) = (Field.apply aKE aAE f v).map RResult.err := rfl

@[simp] theorem ResultChangeset.apply_err_ok {T E KT AT KE AE : Type}
    (aKT : KT → T → Option T) (aAT : AT → T → Option T)
    (aKE : KE → E → Option E) (aAE : AE → E → Option E)
    (f : Field E KE AE) (v : T) :
    ResultChangeset.apply aKT aAT aKE aAE (ResultChangeset.errChangeset f)
      (RResult.ok v) = Option.none := rfl

/-- `PartialEq` for `Result<T, E>`. -/
def resultEq {T E : Type} (eqT : T → T → Bool) (eqE : E → E → Bool) :
    RResult T E → RResult T E → Bool
  | RResult.ok a, RResult.ok b => eqT a b
  | RResult.err a, RResult.err b => eqE a b
  | _, _ => false

/-- `<Result<T, E> as Diff>::changeset` from lib.rs. -/
def resultChangesetFn {T E : Type} (dt : DiffImpl T) (de : DiffImpl E)
    (a b : RResult T E) :
    Field (RResult T E) (ResultChangeset T E dt.K dt.A de.K de.A) Unit :=
  if resultEq dt.eq de.eq a b then Field.none
  else
    match a, b with
    | RResult.ok x, RResult.ok y =>
      Field.changes (ResultChangeset.okChangeset (dt.changeset x y))
    | RResult.err x, RResult.err y =>
      Field.changes (ResultChangeset.errChangeset (de.changeset x y))
    | _, v => Field.set v

/-- The `Diff` instance for `Result<T, E>` (`type Action = ()`). -/
def resultDiff {T E : Type} (dt : DiffImpl T) (de : DiffImpl E) :
    DiffImpl (RResult T E) where
  K := ResultChangeset T E dt.K dt.A de.K de.A
  A := Unit
  applyK := ResultChangeset.apply dt.applyK dt.applyA de.applyK de.applyA
  applyA := unitApply
  eq := resultEq dt.eq de.eq
  changeset := resultChangesetFn dt de

/-- `VecAction<T>` from lib.rs: the four sequence operations. -/
inductive VecAction (α K A : Type) where
  | set : Nat → Field α K A → VecAction α K A
  | push : α → VecAction α K A
  | truncate : Nat → VecAction α K A
  | append : List α → VecAction α K A
deriving DecidableEq

/-- `impl<T: Diff> Apply<Vec<T>> for VecAction<T>`; `Set(index, field)`
panics when the index is out of bounds (the `target[index]` indexing
panic), otherwise applies `field` in place at that position. -/
def VecAction.apply {α K A : Type}
    (applyK : K → α → Option α) (applyA : A → α → Option α) :
    VecAction α K A → List α → Option (List α)
  | VecAction.set i f, t =>
    if h : i < t.length then
      (Field.apply applyK applyA f (t.get ⟨i, h⟩)).map fun v => t.set i v
    else Option.none
  | VecAction.push v, t => some (t ++ [v])
  | VecAction.truncate n, t => some (t.take n)
  | VecAction.append items, t => some (t ++ items)

@[simp] theorem VecAction.apply_set {α K A : Type}
    (aK : K → α → Option α) (aA : A → α → Option α)
    (i : Nat) (f : Field α K A) (t : List α) :
    VecAction.apply aK aA (VecAction.set i f) t =
      if h : i < t.length then
        (Field.apply aK aA f (t.get ⟨i, h⟩)).map fun v => t.set i v
      else Option.none := rfl

@[simp] theorem VecAction.apply_push {α K A : Type}
    (aK : K → α → Option α) (aA : A → α → Option α) (v : α) (t : List α) :
    VecAction.apply aK aA (VecAction.push v) t = some (t ++ [v]) := rfl

@[simp] theorem VecAction.apply_truncate {α K A : Type}
    (aK : K → α → Option α) (aA : A → α → Option α) (n : Nat) (t : List α) :
    VecAction.apply aK aA (VecAction.truncate n) t = some (t.take n) := rfl

@[simp] theorem VecAction.apply_append {α K A : Type}
    (aK : K → α → Option α) (aA : A → α → Option α)
    (items : List α) (t : List α) :
    VecAction.apply aK aA (VecAction.append items) t = some (t ++ items) := rfl

/-- `VecChangeset<T>` from lib.rs: a wrapper around a `Field`. -/
structure VecChangeset (α K A : Type) where
  inner : Field α K A
deriving DecidableEq

/-- `impl<T: Diff> Apply<Vec<T>> for VecChangeset<T>`: the body is empty, so
the apply is unconditionally a no-op. -/
def VecChangeset.apply {α K A : Type} :
    VecChangeset α K A → List α → Option (List α) :=
  fun _ t => some t

@[simp] theorem VecChangeset.apply_eq {α K A : Type}
    (c : VecChangeset α K A) (t : List α) :
    VecChangeset.apply c t = some t := rfl

/-- `PartialEq` for `Vec<T>`: same length and pointwise payload equality. -/
def listEq {α : Type} (eqf : α → α → Bool) : List α → List α → Bool
  | [], [] => true
  | x :: xs, y :: ys => eqf x y && listEq eqf xs ys
  | _, _ => false

/-- The `for i in 0..min { ... }` loop of `<Vec<T> as Diff>::changeset`,
rendered as simultaneous structural recursion on the two lists with the
running index `i` carried as an accumulator: positions `i` with a non-`None`
element diff contribute `Set(i, nested)`, in increasing order of `i`. -/
def vecSetsAux {α : Type} (d : DiffImpl α) :
    Nat → List α → List α → List (VecAction α d.K d.A)
  | _, [], _ => []
  | _, _ :: _, [] => []
  | i, x :: xs, y :: ys =>
    match d.changeset x y with
    | Field.none => vecSetsAux d (i + 1) xs ys
    | c => VecAction.set i c :: vecSetsAux d (i + 1) xs ys

/-- `<Vec<T> as Diff>::changeset` from lib.rs: equality short-circuit, then
positional `Set`s over the common prefix followed by one `Truncate` when
`self` is longer, or one `Append` of `other[min..]` when `other` is longer. -/
def vecChangesetFn {α : Type} (d : DiffImpl α) (a b : List α) :
    Field (List α) (VecChangeset α d.K d.A) (VecAction α d.K d.A) :=
  if listEq d.eq a b then Field.none
  else
    Field.actions
      (vecSetsAux d 0 a b ++
        (if b.length < a.length then [VecAction.truncate b.length]
         else if a.length < b.length then
           [VecAction.append (b.drop (Nat.min a.length b.length))]
         else []))

/-- The `Diff` instance for `Vec<T>`. -/
def vecDiff {α : Type} (d : DiffImpl α) : DiffImpl (List α) where
  K := VecChangeset α d.K d.A
  A := VecAction α d.K d.A
  applyK := VecChangeset.apply
  applyA := VecAction.apply d.applyK d.applyA
  eq := listEq d.eq
  changeset := vecChangesetFn d

/-- Rust `f32` as this library observes it: the code uses only `PartialEq`
(and cloning) on scalars, so a float is modelled as NaN or a non-NaN value,
the latter represented abstractly by an integer code. -/
inductive F32 where
  | nan : F32
  | num : Int → F32
deriving DecidableEq

/-- IEEE `PartialEq` on the `F32` model: NaN is unequal to every float,
itself included; non-NaN values compare by value. -/
def f32Eq : F32 → F32 → Bool
  | F32.num a, F32.num b => a == b
  | _, _ => false

/-- `PartialEq` of Rust `i64` (total value equality). -/
def intEq : Int → Int → Bool := fun a b => a == b

/-- Soundness of a `PartialEq` relation: it answers `true` only on equal
values. (All the library's scalar relations satisfy this; reflexivity, which
IEEE float equality lacks at NaN, is deliberately not required.) -/
def EqSound {α : Type} (eqf : α → α → Bool) : Prop :=
  ∀ a b, eqf a b = true → a = b

/-- A `Diff` instance is sound when its `PartialEq` is sound and
diff-then-apply reproduces the second argument. -/
def DiffImpl.Sound {α : Type} (d : DiffImpl α) : Prop :=
  EqSound d.eq ∧ ∀ a b, d.applyField (d.changeset a b) a = some b

/-- The core diffable types of the library: scalars with a sound
`PartialEq`, and `Option`, `Result`, `Vec` of diffable payloads. -/
inductive CoreDiffable : {α : Type} → DiffImpl α → Prop where
  | scalar {α : Type} (eqf : α → α → Bool) (hsound : EqSound eqf) :
      CoreDiffable (scalarDiff eqf)
  | option {α : Type} {d : DiffImpl α} (h : CoreDiffable d) :
      CoreDiffable (optionDiff d)
  | result {T E : Type} {dt : DiffImpl T} {de : DiffImpl E}
      (ht : CoreDiffable dt) (he : CoreDiffable de) :
      CoreDiffable (resultDiff dt de)
  | vec {α : Type} {d : DiffImpl α} (h : CoreDiffable d) :
      CoreDiffable (vecDiff d)

theorem intEq_sound : EqSound intEq := fun _ _ h => eq_of_beq h

theorem f32Eq_sound : EqSound f32Eq := by
  intro a b h
  cases a <;> cases b <;> simp [f32Eq] at h ⊢
  exact h

theorem optEq_sound {α : Type} {eqf : α → α → Bool} (h : EqSound eqf) :
    EqSound (optEq eqf) := by
  intro a b hab
  cases a <;> cases b <;> simp [optEq] at hab ⊢
  exact h _ _ hab

theorem resultEq_sound {T E : Type} {eqT : T → T → Bool} {eqE : E → E → Bool}
    (hT : EqSound eqT) (hE : EqSound eqE) : EqSound (resultEq eqT eqE) := by
  intro a b hab
  cases a <;> cases b <;> simp [resultEq] at hab ⊢
  · exact hT _ _ hab
  · exact hE _ _ hab

theorem listEq_sound {α : Type} {eqf : α → α → Bool} (h : EqSound eqf) :
    EqSound (listEq eqf) := by
  intro a
  induction a with
  | nil =>
    intro b hb
    cases b with
    | nil => rfl
    | cons y ys => simp [listEq] at hb
  | cons x xs ih =>
    intro b hb
    cases b with
    | nil => simp [listEq] at hb
    | cons y ys =>
      rw [listEq, Bool.and_eq_true] at hb
      rw [h x y hb.1, ih ys hb.2]

theorem scalarDiff_sound {α : Type} {eqf : α → α → Bool} (h : EqSound eqf) :
    (scalarDiff eqf).Sound := by
  refine ⟨h, ?_⟩
  intro a b
  cases heq : eqf a b with
  | true =>
    have hab := h a b heq
    subst hab
    simp [scalarDiff, DiffImpl.applyField, heq]
  | false =>
    simp [scalarDiff, DiffImpl.applyField, heq]

/-- The element at position `u.length` of `u ++ x :: l` is `x`. -/
theorem getElem_append_len {α : Type} (u : List α) (x : α) (l : List α)
    (h : u.length < (u ++ x :: l).length) :
    (u ++ x :: l)[u.length] = x := by
  induction u with
  | nil => rfl
  | cons a u ih => simpa using ih (by simp)

/-- Setting position `u.length` of `u ++ x :: l` replaces `x`. -/
theorem set_append_len {α : Type} (u : List α) (x y : α) (l : List α) :
    (u ++ x :: l).set u.length y = u ++ y :: l := by
  induction u with
  | nil => rfl
  | cons a u ih => simp [List.set, ih]

theorem applyList_append {V A : Type} (aA : A → V → Option V)
    (l1 l2 : List A) (t : V) :
    applyList aA (l1 ++ l2) t = (applyList aA l1 t).bind (applyList aA l2) := by
  induction l1 generalizing t with
  | nil => simp
  | cons a rest ih =>
    cases h : aA a t <;> simp [h, ih]

/-- The state of the target after the positional `Set` phase of the sequence
diff: the common prefix is taken from the second list, the remainder from the
first. -/
def patch {α : Type} : List α → List α → List α
  | [], _ => []
  | x :: xs, [] => x :: xs
  | _ :: xs, y :: ys => y :: patch xs ys

theorem patch_take {α : Type} :
    ∀ (a b : List α), b.length ≤ a.length → (patch a b).take b.length = b
  | _, [], _ => by simp
  | [], _ :: _, h => by simp at h
  | x :: xs, y :: ys, h => by
    simp only [patch, List.length_cons, List.take_succ_cons, List.cons.injEq,
      true_and]
    exact patch_take xs ys (Nat.succ_le_succ_iff.mp (by simpa using h))

theorem patch_append_drop {α : Type} :
    ∀ (a b : List α), a.length ≤ b.length → patch a b ++ b.drop a.length = b
  | [], b, _ => by simp [patch]
  | _ :: _, [], h => by simp at h
  | x :: xs, y :: ys, h => by
    simp only [patch, List.length_cons, List.drop_succ_cons, List.cons_append,
      List.cons.injEq, true_and]
    exact patch_append_drop xs ys (Nat.succ_le_succ_iff.mp (by simpa using h))

theorem patch_of_length_eq {α : Type} :
    ∀ (a b : List α), a.length = b.length → patch a b = b
  | [], [], _ => rfl
  | [], _ :: _, h => by simp at h
  | _ :: _, [], h => by simp at h
  | x :: xs, y :: ys, h => by
    simp only [patch, List.cons.injEq, true_and]
    exact patch_of_length_eq xs ys (by simpa using h)

/-- Applying `Set(u.length, c)` to `u ++ x :: w` rewrites the element `x` to
whatever `c` makes of it. -/
theorem applyList_set_cons {α K A : Type}
    (aK : K → α → Option α) (aA2 : A → α → Option α)
    (c : Field α K A) (rest : List (VecAction α K A))
    (u : List α) (x : α) (w : List α) (y : α)
    (happ : Field.apply aK aA2 c x = some y) :
    applyList (VecAction.apply aK aA2)
        (VecAction.set u.length c :: rest) (u ++ x :: w) =
      applyList (VecAction.apply aK aA2) rest (u ++ y :: w) := by
  have hlt : u.length < (u ++ x :: w).length := by simp
  simp [applyList_cons, VecAction.apply_set, hlt, getElem_append_len u x w hlt,
    happ, set_append_len u x y w]

/-- Core invariant of the positional `Set` phase: starting from
`u ++ (xs ++ w)` with the loop index at `u.length`, the emitted `Set`
actions rewrite the `xs` segment to `patch xs ys`, given a sound element
instance. -/
theorem vecSetsAux_applyList {α : Type} {d : DiffImpl α} (hd : d.Sound) :
    ∀ (xs ys u w : List α),
      applyList (VecAction.apply d.applyK d.applyA)
          (vecSetsAux d u.length xs ys) (u ++ (xs ++ w)) =
        some (u ++ (patch xs ys ++ w))
  | [], ys, u, w => by simp [vecSetsAux, patch]
  | x :: xs, [], u, w => by simp [vecSetsAux, patch]
  | x :: xs, y :: ys, u, w => by
    have happly := hd.2 x y
    simp only [DiffImpl.applyField] at happly
    cases hc : d.changeset x y
    case none =>
      rw [hc] at happly
      simp only [Field.apply_none, Option.some.injEq] at happly
      subst happly
      have hrec := vecSetsAux_applyList hd xs ys (u ++ [x]) w
      simp only [vecSetsAux, hc]
      simpa [List.append_assoc] using hrec
    all_goals
      rw [hc] at happly
      have hrec := vecSetsAux_applyList hd xs ys (u ++ [y]) w
      simp only [vecSetsAux, hc, List.cons_append]
      rw [applyList_set_cons _ _ _ _ u x (xs ++ w) y happly]
      simpa [List.append_assoc, patch] using hrec

/-- Diff-then-apply roundtrip for the sequence instance. -/
theorem vecDiff_sound {α : Type} {d : DiffImpl α} (hd : d.Sound) :
    (vecDiff d).Sound := by
  refine ⟨listEq_sound hd.1, ?_⟩
  intro a b
  show (vecDiff d).applyField (vecChangesetFn d a b) a = some b
  unfold vecChangesetFn
  cases h : listEq d.eq a b with
  | true => simp [vecDiff, DiffImpl.applyField, listEq_sound hd.1 a b h]
  | false =>
    simp only [h, Bool.false_eq_true, if_false, vecDiff, DiffImpl.applyField,
      Field.apply_actions]
    rw [applyList_append]
    have hsets := vecSetsAux_applyList hd a b [] []
    simp only [List.nil_append, List.append_nil, List.length_nil] at hsets
    rw [hsets]
    rcases Nat.lt_trichotomy a.length b.length with hlt | heq2 | hgt
    · have h1 : ¬ (b.length < a.length) := by omega
      simp [h1, hlt, Nat.min_eq_left (Nat.le_of_lt hlt),
        patch_append_drop a b (Nat.le_of_lt hlt)]
    · have h1 : ¬ (b.length < a.length) := by omega
      have h2 : ¬ (a.length < b.length) := by omega
      simp [h1, h2, patch_of_length_eq a b heq2]
    · simp [hgt, patch_take a b (Nat.le_of_lt hgt)]

theorem optionDiff_sound {α : Type} {d : DiffImpl α} (hd : d.Sound) :
    (optionDiff d).Sound := by
  obtain ⟨he, ha⟩ := hd
  refine ⟨optEq_sound he, ?_⟩
  intro a b
  show (optionDiff d).applyField (optionChangesetFn d a b) a = some b
  unfold optionChangesetFn
  cases h : optEq d.eq a b with
  | true =>
    simp [optionDiff, DiffImpl.applyField, optEq_sound he a b h]
  | false =>
    cases a with
    | none =>
      cases b with
      | none => simp [optEq] at h
      | some y => simp [optionDiff, DiffImpl.applyField, h]
    | some x =>
      cases b with
      | none => simp [optionDiff, DiffImpl.applyField, h]
      | some y =>
        have hx := ha x y
        simp [DiffImpl.applyField] at hx
        simp [optionDiff, DiffImpl.applyField, h, hx]

theorem resultDiff_sound {T E : Type} {dt : DiffImpl T} {de : DiffImpl E}
    (ht : dt.Sound) (hee : de.Sound) : (resultDiff dt de).Sound := by
  obtain ⟨het, hat⟩ := ht
  obtain ⟨hede, hae⟩ := hee
  refine ⟨resultEq_sound het hede, ?_⟩
  intro a b
  show (resultDiff dt de).applyField (resultChangesetFn dt de a b) a = some b
  unfold resultChangesetFn
  cases h : resultEq dt.eq de.eq a b with
  | true =>
    simp [resultDiff, DiffImpl.applyField, resultEq_sound het hede a b h]
  | false =>
    cases a with
    | ok x =>
      cases b with
      | ok y =>
        have hx := hat x y
        simp [DiffImpl.applyField] at hx
        simp [resultDiff, DiffImpl.applyField, h, hx]
      | err y => simp [resultDiff, DiffImpl.applyField, h]
    | err x =>
      cases b with
      | ok y => simp [resultDiff, DiffImpl.applyField, h]
      | err y =>
        have hx := hae x y
        simp [DiffImpl.applyField] at hx
        simp [resultDiff, DiffImpl.applyField, h, hx]

/-- Every core diffable instance (scalars, and `Option` / `Result` / `Vec`
towers over them) is sound. -/
theorem coreDiffable_sound : ∀ {α : Type} (d : DiffImpl α), CoreDiffable d → d.Sound := by
  intro α d h
  induction h with
  | scalar eqf hs => exact scalarDiff_sound hs
  | option _ ih => exact optionDiff_sound ih
  | result _ _ iht ihe => exact resultDiff_sound iht ihe
  | vec _ ih => exact vecDiff_sound ih

/-- C1: for every pair of values `a`, `b` of the same core diffable type
(any scalar, `Option`, `Result`, or `Vec` of diffable elements), letting
`c = a.changeset(&b)`, applying `c` to a mutable copy of `a` terminates
without panicking and yields a value equal to `b`. -/
theorem changeset_apply_roundtrip {α : Type} (d : DiffImpl α)
    (h : CoreDiffable d) (a b : α) :
    d.applyField (d.changeset a b) a = some b :=
  (coreDiffable_sound d h).2 a b

/-- Witness for C1 at a concrete nested instance: diffing
`Some [1, 2]` to `Some [1, 3, 4]` and applying the changeset back onto
`Some [1, 2]` yields `Some [1, 3, 4]`. -/
theorem changeset_apply_roundtrip_witness :
    (optionDiff (vecDiff (scalarDiff intEq))).applyField
        ((optionDiff (vecDiff (scalarDiff intEq))).changeset
          (Option.some [1, 2]) (Option.some [1, 3, 4]))
        (Option.some [1, 2]) =
      some (Option.some [1, 3, 4]) :=
  changeset_apply_roundtrip (optionDiff (vecDiff (scalarDiff intEq)))
    (CoreDiffable.option (CoreDiffable.vec (CoreDiffable.scalar intEq intEq_sound)))
    (Option.some [1, 2]) (Option.some [1, 3, 4])

/-- C3 counterexample: for `f32`, reflexivity of `changeset` fails at NaN:
`NaN.changeset(&NaN)` is `Set(NaN)`, not `None`, because IEEE `PartialEq`
has `NaN != NaN`. -/
theorem changeset_refl_nan_refuted :
    (scalarDiff f32Eq).changeset F32.nan F32.nan = Field.set F32.nan ∧
      (scalarDiff f32Eq).changeset F32.nan F32.nan ≠ Field.none := by
  refine ⟨rfl, ?_⟩
  intro hc
  simp [scalarDiff, f32Eq] at hc

/-- C3 amended: for every value `x` of a core diffable type on which the
type's `PartialEq` is reflexive (`x == x` holds; this is every value of the
integer, boolean, unit and text scalars, and excludes exactly the NaN
values for `f32`/`f64`), `x.changeset(&x)` is `None`. -/
theorem changeset_refl_of_eq_refl {α : Type} (d : DiffImpl α)
    (h : CoreDiffable d) (x : α) (hx : d.eq x x = true) :
    d.changeset x x = Field.none := by
  cases h with
  | scalar eqf hs =>
    simp only [scalarDiff] at hx ⊢
    simp [hx]
  | option hd =>
    simp only [optionDiff] at hx ⊢
    simp [optionChangesetFn, hx]
  | result ht he =>
    simp only [resultDiff] at hx ⊢
    simp [resultChangesetFn, hx]
  | vec hd =>
    simp only [vecDiff] at hx ⊢
    simp [vecChangesetFn, hx]

/-- Witness for the amended C3: `5 == 5` for the integer scalar, and
`(5).changeset(&5)` is `None`. -/
theorem changeset_refl_of_eq_refl_witness :
    (scalarDiff intEq).eq 5 5 = true ∧
      (scalarDiff intEq).changeset 5 5 = Field.none :=
  ⟨by decide, changeset_refl_of_eq_refl (scalarDiff intEq)
    (CoreDiffable.scalar intEq intEq_sound) 5 (by decide)⟩

/-- C5: applying a branch-bearing changeset case to a target not in the
matching branch panics (modelled as `Option.none`): a `SomeChangeset` on an
absent `Option`, an `OkChangeset` on an `Err` target, or an `ErrChangeset`
on an `Ok` target. The apply never returns a result there, so the mismatch
is neither silently accepted nor a coercion of the target. -/
theorem branch_mismatch_panics {T E KT AT KE AE : Type}
    (aKT : KT → T → Option T) (aAT : AT → T → Option T)
    (aKE : KE → E → Option E) (aAE : AE → E → Option E)
    (f : Field T KT AT) (g : Field E KE AE) (e : E) (v : T) :
    OptionChangeset.apply aKT aAT (OptionChangeset.someChangeset f)
        Option.none = Option.none ∧
      ResultChangeset.apply aKT aAT aKE aAE (ResultChangeset.okChangeset f)
        (RResult.err e) = Option.none ∧
      ResultChangeset.apply aKT aAT aKE aAE (ResultChangeset.errChangeset g)
        (RResult.ok v) = Option.none :=
  ⟨rfl, rfl, rfl⟩

/-- C7: for every scalar `PartialEq` and every pair of values,
`a.changeset(&b)` is `Set(b)` exactly when `a != b`, and `None` exactly when
`a == b`. -/
theorem scalar_changeset_iff {α : Type} (eqf : α → α → Bool) (a b : α) :
    ((scalarDiff eqf).changeset a b = Field.set b ↔ eqf a b = false) ∧
      ((scalarDiff eqf).changeset a b = Field.none ↔ eqf a b = true) := by
  cases h : eqf a b <;> simp [scalarDiff, h]

/-- C8: behavior of the four sequence actions: `Set(i, field)` rewrites the
element at position `i` through `field` when `i` is in bounds and panics
otherwise; `Push(v)` appends the single element `v`; `Truncate(len)` keeps
the first `len` elements, a no-op when the length is already `≤ len`;
`Append(items)` extends the target with `items` in order. -/
theorem vecAction_apply_spec {α K A : Type}
    (aK : K → α → Option α) (aA : A → α → Option α)
    (i : Nat) (f : Field α K A) (v : α) (n : Nat) (items t : List α) :
    (∀ h : i < t.length, ∀ y, Field.apply aK aA f (t.get ⟨i, h⟩) = some y →
        VecAction.apply aK aA (VecAction.set i f) t = some (t.set i y)) ∧
      (¬ i < t.length →
        VecAction.apply aK aA (VecAction.set i f) t = Option.none) ∧
      VecAction.apply aK aA (VecAction.push v) t = some (t ++ [v]) ∧
      (VecAction.apply aK aA (VecAction.truncate n) t = some (t.take n) ∧
        (t.length ≤ n →
          VecAction.apply aK aA (VecAction.truncate n) t = some t)) ∧
      VecAction.apply aK aA (VecAction.append items) t = some (t ++ items) := by
  refine ⟨?_, ?_, rfl, ⟨rfl, ?_⟩, rfl⟩
  · intro h y hy
    simp only [List.get_eq_getElem] at hy
    simp [VecAction.apply_set, h, hy]
  · intro h
    simp [VecAction.apply_set, h]
  · intro h
    simp [List.take_of_length_le h]

/-- Witness for C8: an in-bounds `Set`, an out-of-bounds `Set` panic, and a
no-op `Truncate` at concrete inputs. -/
theorem vecAction_apply_spec_witness :
    VecAction.apply (@unitApply Int) (@unitApply Int)
        (VecAction.set 1 (Field.set 9)) [4, 5, 6] = some [4, 9, 6] ∧
      VecAction.apply (@unitApply Int) (@unitApply Int)
        (VecAction.set 5 (Field.set 9)) [4, 5, 6] = Option.none ∧
      VecAction.apply (@unitApply Int) (@unitApply Int)
        (VecAction.truncate 7) [4, 5, 6] = some [4, 5, 6] :=
  ⟨(vecAction_apply_spec (@unitApply Int) (@unitApply Int) 1 (Field.set 9)
      9 7 [] [4, 5, 6]).1 (by decide) 9 rfl,
    (vecAction_apply_spec (@unitApply Int) (@unitApply Int) 5 (Field.set 9)
      9 7 [] [4, 5, 6]).2.1 (by decide),
    ((vecAction_apply_spec (@unitApply Int) (@unitApply Int) 0 Field.none
      9 7 [] [4, 5, 6]).2.2.2.1).2 (by decide)⟩

/-- C9: applying the `Field::None` change representation to any target of
any diffable type leaves it unchanged (and never panics). -/
theorem apply_none_noop {V K A : Type} (aK : K → V → Option V)
    (aA : A → V → Option V) (t : V) :
    Field.apply aK aA Field.none t = some t := rfl

/-- C10: `VecChangeset::apply` is unconditionally a no-op: applying any
`VecChangeset` value to any `Vec` target — directly, or through the
`Changes` case of a sequence `Field` — leaves the target unchanged, so all
sequence mutation flows exclusively through the `Actions` case. -/
theorem vecChangeset_apply_noop {α K A : Type} (c : VecChangeset α K A)
    (aA : VecAction α K A → List α → Option (List α)) (t : List α) :
    VecChangeset.apply c t = some t ∧
      Field.apply VecChangeset.apply aA (Field.changes c) t = some t :=
  ⟨rfl, rfl⟩

/-- C4 counterexample: when both sides are absent, the equality
short-circuit fires first (`None == None`), so `None.changeset(&None)` is
`Field::None` — not `Changes(NoneChangeset(..))` as the claim's both-absent
rule states. -/
theorem option_changeset_both_absent_refuted :
    optionChangesetFn (scalarDiff intEq) Option.none Option.none = Field.none ∧
      optionChangesetFn (scalarDiff intEq) Option.none Option.none ≠
        Field.changes (OptionChangeset.noneChangeset Field.none) := by
  refine ⟨rfl, ?_⟩
  intro hc
  simp [optionChangesetFn, optEq] at hc

/-- C4 amended: the `Option` changeset rules, with the equality rule taking
precedence — equal sides (which includes both absent) give `None`; two
present, unequal sides give `Changes(SomeChangeset(nested payload diff))`;
differing presence gives wholesale `Set(other)`; and the `NoneChangeset`
match arm is unreachable: no output of `changeset` is ever
`Changes(NoneChangeset(..))`. -/
theorem option_changeset_rules {α : Type} (d : DiffImpl α) (a b : Option α) :
    (optEq d.eq a b = true → optionChangesetFn d a b = Field.none) ∧
      (∀ x y, a = Option.some x → b = Option.some y →
        optEq d.eq a b = false →
        optionChangesetFn d a b =
          Field.changes (OptionChangeset.someChangeset (d.changeset x y))) ∧
      (a = Option.none → b = Option.none →
        optionChangesetFn d a b = Field.none) ∧
      (∀ y, a = Option.none → b = Option.some y →
        optionChangesetFn d a b = Field.set (Option.some y)) ∧
      (∀ x, a = Option.some x → b = Option.none →
        optionChangesetFn d a b = Field.set Option.none) ∧
      ∀ k, optionChangesetFn d a b ≠
        Field.changes (OptionChangeset.noneChangeset k) := by
  refine ⟨?_, ?_, ?_, ?_, ?_, ?_⟩
  · intro h
    simp [optionChangesetFn, h]
  · intro x y hx hy h
    subst hx; subst hy
    simp [optionChangesetFn, h]
  · intro hx hy
    subst hx; subst hy
    simp [optionChangesetFn, optEq]
  · intro y hx hy
    subst hx; subst hy
    simp [optionChangesetFn, optEq]
  · intro x hx hy
    subst hx; subst hy
    simp [optionChangesetFn, optEq]
  · intro k hc
    cases a with
    | none =>
      cases b with
      | none => simp [optionChangesetFn, optEq] at hc
      | some y => simp [optionChangesetFn, optEq] at hc
    | some x =>
      cases b with
      | none => simp [optionChangesetFn, optEq] at hc
      | some y =>
        by_cases h : d.eq x y = true <;>
          simp [optionChangesetFn, optEq, h] at hc

/-- Witness for the amended C4: two unequal present payloads produce the
nested `SomeChangeset` diff. -/
theorem option_changeset_rules_witness :
    optionChangesetFn (scalarDiff intEq) (Option.some 1) (Option.some 2) =
      Field.changes (OptionChangeset.someChangeset (Field.set 2)) :=
  (option_changeset_rules (scalarDiff intEq)
    (Option.some 1) (Option.some 2)).2.1 1 2 rfl rfl (by decide)

/-- §4.3 of the spec, stated as written: for every position `i` in
`[0, min(m, n))`, compute `self[i].changeset(&other[i])`; when that nested
result is not `None`, emit a `Set(i, nested)` action — in increasing index
order. -/
def specSets {α : Type} (d : DiffImpl α) (a b : List α) :
    List (VecAction α d.K d.A) :=
  (List.range (Nat.min a.length b.length)).filterMap fun i =>
    match a.get? i, b.get? i with
    | Option.some x, Option.some y =>
      match d.changeset x y with
      | Field.none => Option.none
      | c => Option.some (VecAction.set i c)
    | _, _ => Option.none

/-- §4.3's trailing action: exactly one `Truncate(n)` when `m > n`, exactly
one `Append(other[min(m, n)..])` when `m < n`, and nothing when `m = n`. -/
def specTail {α : Type} (d : DiffImpl α) (a b : List α) :
    List (VecAction α d.K d.A) :=
  if a.length > b.length then [VecAction.truncate b.length]
  else if a.length < b.length then
    [VecAction.append (b.drop (Nat.min a.length b.length))]
  else []

/-- The loop rendering of the `Set` phase agrees with the spec's indexed
description, for any starting index `k`. -/
theorem vecSetsAux_eq_range {α : Type} (d : DiffImpl α) :
    ∀ (k : Nat) (xs ys : List α),
      vecSetsAux d k xs ys =
        (List.range (Nat.min xs.length ys.length)).filterMap fun i =>
          match xs.get? i, ys.get? i with
          | Option.some x, Option.some y =>
            match d.changeset x y with
            | Field.none => Option.none
            | c => Option.some (VecAction.set (k + i) c)
          | _, _ => Option.none
  | k, [], ys => by simp [vecSetsAux]
  | k, x :: xs, [] => by simp [vecSetsAux]
  | k, x :: xs, y :: ys => by
    have ih := vecSetsAux_eq_range d (k + 1) xs ys
    simp only [List.length_cons, Nat.succ_min_succ, List.range_succ_eq_map,
      List.filterMap_cons, List.filterMap_map]
    have hfun :
        (fun i =>
            match (x :: xs).get? i, (y :: ys).get? i with
            | Option.some x2, Option.some y2 =>
              match d.changeset x2 y2 with
              | Field.none => Option.none
              | c => Option.some (VecAction.set (k + i) c)
            | _, _ => Option.none) ∘ Nat.succ =
          fun i =>
            match xs.get? i, ys.get? i with
            | Option.some x2, Option.some y2 =>
              match d.changeset x2 y2 with
              | Field.none => Option.none
              | c => Option.some (VecAction.set ((k + 1) + i) c)
            | _, _ => Option.none := by
      funext i
      have harith : k + (i + 1) = (k + 1) + i := by omega
      simp only [Function.comp_apply, List.get?_cons_succ, Nat.succ_eq_add_one,
        harith]
    rw [hfun, ← ih]
    cases hc : d.changeset x y with
    | none => simp [vecSetsAux, hc]
    | set v => simp [vecSetsAux, hc]
    | changes k2 => simp [vecSetsAux, hc]
    | actions l2 => simp [vecSetsAux, hc]

/-- The implementation's `Set` phase equals the spec-side description. -/
theorem specSets_eq_vecSetsAux {α : Type} (d : DiffImpl α) (a b : List α) :
    specSets d a b = vecSetsAux d 0 a b := by
  rw [vecSetsAux_eq_range d 0 a b]
  unfold specSets
  congr 1
  funext i
  simp

/-- C2: for vectors that are unequal under `PartialEq`, the changeset is
`Actions` of exactly the spec's positional `Set(i, nested)` actions — the
indices `i < min(m, n)` whose element diff is not `None`, in increasing
order — followed by the single trailing `Truncate(n)` (when `m > n`) or
`Append(other[min..])` (when `m < n`), and nothing else; for equal vectors
the result is `None`. -/
theorem vec_changeset_shape {α : Type} (d : DiffImpl α) (a b : List α) :
    (listEq d.eq a b = true → vecChangesetFn d a b = Field.none) ∧
      (listEq d.eq a b = false →
        vecChangesetFn d a b =
          Field.actions (specSets d a b ++ specTail d a b)) := by
  constructor
  · intro h
    simp [vecChangesetFn, h]
  · intro h
    simp only [vecChangesetFn, h, Bool.false_eq_true, if_false,
      specSets_eq_vecSetsAux, specTail, gt_iff_lt]

/-- Witness for C2: diffing `[1, 2]` against `[1, 3, 4]` produces one
positional `Set(1, Set(3))` followed by one `Append([4])`. -/
theorem vec_changeset_shape_witness :
    listEq (scalarDiff intEq).eq [1, 2] [1, 3, 4] = false ∧
      vecChangesetFn (scalarDiff intEq) [1, 2] [1, 3, 4] =
        Field.actions [VecAction.set 1 (Field.set 3), VecAction.append [4]] :=
  ⟨by decide, by
    rw [(vec_changeset_shape (scalarDiff intEq) [1, 2] [1, 3, 4]).2 (by decide)]
    rfl⟩

/-- If a whole action list applies successfully, then every prefix applies
successfully and the next action succeeds on the intermediate state. -/
theorem applyList_prefix_ok {V A : Type} (f : A → V → Option V) :
    ∀ (l1 : List A) (x : A) (l2 : List A) (t r : V),
      applyList f (l1 ++ x :: l2) t = some r →
      ∃ t1, applyList f l1 t = some t1 ∧ ∃ t2, f x t1 = some t2
  | [], x, l2, t, r, h => by
    simp only [List.nil_append, applyList_cons] at h
    cases hx : f x t with
    | none => rw [hx] at h; simp at h
    | some t2 => exact ⟨t, rfl, t2, hx⟩
  | a :: rest, x, l2, t, r, h => by
    simp only [List.cons_append, applyList_cons] at h
    cases ha : f a t with
    | none => rw [ha] at h; simp at h
    | some t1 =>
      rw [ha] at h
      simp only [Option.some_bind] at h
      obtain ⟨t1', h1, t2, h2⟩ := applyList_prefix_ok f rest x l2 t1 r h
      exact ⟨t1', by simp [ha, h1], t2, h2⟩

/-- C6: in the action list produced by the sequence diff of a core diffable
element type, every `Set(i, _)` action's index is in bounds of the target at
the moment that action is applied, when the whole list is applied left to
right starting from a copy of `a` — so the out-of-bounds indexing panic of
the sequence apply engine is unreachable on algorithm-produced lists. -/
theorem vec_changeset_indices_in_bounds {α : Type} (d : DiffImpl α)
    (h : CoreDiffable d) (a b : List α) (l : List (VecAction α d.K d.A))
    (hl : vecChangesetFn d a b = Field.actions l)
    (l1 : List (VecAction α d.K d.A)) (i : Nat) (c : Field α d.K d.A)
    (l2 : List (VecAction α d.K d.A))
    (hsplit : l = l1 ++ VecAction.set i c :: l2) :
    ∃ t, applyList (VecAction.apply d.applyK d.applyA) l1 a = some t ∧
      i < t.length := by
  have hs := (vecDiff_sound (coreDiffable_sound d h)).2 a b
  simp only [vecDiff, DiffImpl.applyField] at hs
  rw [hl] at hs
  simp only [Field.apply_actions] at hs
  subst hsplit
  obtain ⟨t1, h1, t2, h2⟩ :=
    applyList_prefix_ok (VecAction.apply d.applyK d.applyA) l1
      (VecAction.set i c) l2 a b hs
  refine ⟨t1, h1, ?_⟩
  by_cases hlt : i < t1.length
  · exact hlt
  · simp [VecAction.apply_set, hlt] at h2

/-- Witness for C6: in the list produced by diffing `[1, 2]` against
`[1, 3, 4]`, the single `Set` action (at index 1, after the empty prefix)
is in bounds of the starting target. -/
theorem vec_changeset_indices_in_bounds_witness :
    ∃ t, applyList
        (VecAction.apply (scalarDiff intEq).applyK (scalarDiff intEq).applyA)
        [] [1, 2] = some t ∧ 1 < t.length :=
  vec_changeset_indices_in_bounds (scalarDiff intEq)
    (CoreDiffable.scalar intEq intEq_sound) [1, 2] [1, 3, 4]
    [VecAction.set 1 (Field.set 3), VecAction.append [4]] (by rfl)
    [] 1 (Field.set 3) [VecAction.append [4]] rfl

end Structdiff

